import Mathlib

/-!
Verification of the core of the `khoj` offline hybrid file-search engine.

The Rust sources are shallowly embedded:
* Rust `String`/`&str` values are `List Char` (Unicode scalar values); byte
  positions are tracked through `utf8Size`, since the source indexes strings
  by UTF-8 byte offsets.  A byte-indexing operation that would panic in Rust
  (slicing outside a character boundary) is modelled as `Option.none`.
* `f32` arithmetic is modelled as exact arithmetic over `ℚ` (and over `ℝ`
  where the source takes a square root).  All order-sensitive facts proved
  below hold with margins far above `f32` rounding error.
* `HashMap` state is modelled as an association list kept in first-insertion
  order; iteration order of the Rust `HashMap` is unspecified, and the
  theorems below do not depend on the order of equal-score ties beyond this
  deterministic model.
-/

namespace Khoj

/-! ## UTF-8 byte bookkeeping -/

/-- Number of bytes of the UTF-8 encoding of a Unicode scalar value.
Rust strings are UTF-8, and the source indexes them by byte offset. -/
def utf8Size (c : Char) : Nat :=
  if c.toNat ≤ 0x7F then 1
  else if c.toNat ≤ 0x7FF then 2
  else if c.toNat ≤ 0xFFFF then 3
  else 4

/-- Total UTF-8 byte length of a string. -/
def utf8Len (l : List Char) : Nat :=
  (l.map utf8Size).sum

/-- Take the prefix of a string occupying exactly `n` UTF-8 bytes.
`none` when `n` overruns the string or falls inside a character, i.e. when
the corresponding Rust byte slice would panic. -/
def takeBytes : List Char → Nat → Option (List Char)
  | _, 0 => some []
  | [], _ + 1 => none
  | c :: cs, n + 1 =>
    if utf8Size c ≤ n + 1 then (takeBytes cs (n + 1 - utf8Size c)).map (fun l => c :: l)
    else none

/-- Drop the first `n` UTF-8 bytes of a string; `none` on a non-boundary. -/
def dropBytes : List Char → Nat → Option (List Char)
  | l, 0 => some l
  | [], _ + 1 => none
  | c :: cs, n + 1 =>
    if utf8Size c ≤ n + 1 then dropBytes cs (n + 1 - utf8Size c)
    else none

/-- Rust `&s[start..stop]` by byte offsets: `none` models the panic on
`start > stop`, out-of-range offsets, or offsets inside a character. -/
def byteSlice (l : List Char) (start stop : Nat) : Option (List Char) :=
  if start ≤ stop then (dropBytes l start).bind (fun rest => takeBytes rest (stop - start))
  else none

/-- Rust `str::find` for a literal pattern: byte offset of the first
occurrence of `p` as a contiguous substring of `l` (`some 0` for an empty
pattern, as in Rust). -/
def findB : List Char → List Char → Option Nat
  | l, p =>
    if p.isPrefixOf l then some 0
    else
      match l with
      | [] => none
      | c :: cs => (findB cs p).map (fun n => utf8Size c + n)

/-- Rust `str::contains` for a literal pattern. -/
def containsB (l p : List Char) : Bool :=
  (findB l p).isSome

/-- Rust `str::ends_with` for a literal pattern (byte-level suffix matching
coincides with character-level suffix matching on valid UTF-8). -/
def endsWithB (l p : List Char) : Bool :=
  p.isSuffixOf l

/-- One character of Rust `str::to_lowercase`.  The full Unicode table is
abridged: the embedding covers the ASCII range, the Latin-1 uppercase range,
and the length-changing code points `İ`, `ẞ`, `Ⱥ`, `Ⱦ` exercised below; every
other character is mapped to itself.  All inputs appearing in the theorems
stay inside this fragment. -/
def rustCharToLower (c : Char) : List Char :=
  if 65 ≤ c.toNat ∧ c.toNat ≤ 90 then [Char.ofNat (c.toNat + 32)]
  else if c = 'İ' then ['i', Char.ofNat 0x307]
  else if c = 'ẞ' then ['ß']
  else if c = 'Ⱥ' then ['ⱥ']
  else if c = 'Ⱦ' then ['ⱦ']
  else if 0xC0 ≤ c.toNat ∧ c.toNat ≤ 0xDE ∧ c.toNat ≠ 0xD7 then [Char.ofNat (c.toNat + 32)]
  else [c]

/-- Rust `str::to_lowercase`. -/
def toLowerRust (l : List Char) : List Char :=
  l.flatMap rustCharToLower

/-! ## `src/lib.rs`: `FileType` -/

/-- `types::FileType` from `src/lib.rs`. -/
inductive FileType where
  | Text
  | Code
  | Markdown
  | Pdf
  | Docx
  | Xlsx
  | Image
  | Archive
  | Unknown
deriving DecidableEq, Repr

/-- `FileType::from_extension` from `src/lib.rs`. -/
def FileType.from_extension (ext : List Char) : FileType :=
  let e := toLowerRust ext
  if e = "txt".toList ∨ e = "text".toList then .Text
  else if e = "md".toList ∨ e = "markdown".toList then .Markdown
  else if e = "rs".toList ∨ e = "py".toList ∨ e = "js".toList ∨ e = "ts".toList ∨
      e = "java".toList ∨ e = "c".toList ∨ e = "cpp".toList ∨ e = "go".toList ∨
      e = "rb".toList then .Code
  else if e = "pdf".toList then .Pdf
  else if e = "docx".toList ∨ e = "doc".toList then .Docx
  else if e = "xlsx".toList ∨ e = "xls".toList then .Xlsx
  else if e = "jpg".toList ∨ e = "jpeg".toList ∨ e = "png".toList ∨ e = "gif".toList ∨
      e = "bmp".toList ∨ e = "webp".toList then .Image
  else if e = "zip".toList ∨ e = "tar".toList ∨ e = "gz".toList ∨ e = "7z".toList then .Archive
  else .Unknown

/-- `FileType::as_str` from `src/lib.rs`. -/
def FileType.as_str : FileType → List Char
  | .Text => "text".toList
  | .Code => "code".toList
  | .Markdown => "markdown".toList
  | .Pdf => "pdf".toList
  | .Docx => "docx".toList
  | .Xlsx => "xlsx".toList
  | .Image => "image".toList
  | .Archive => "archive".toList
  | .Unknown => "unknown".toList

/-- Decoding of the stored `file_type` column in
`impl From<FileMetadataRow> for FileMetadata` (`src/storage/mod.rs`):
the stored string is run back through `FileType::from_extension`. -/
def decodeStoredFileType (stored : List Char) : FileType :=
  FileType.from_extension stored

/-! ## `src/extractors/text.rs`: snippet extraction -/

/-- `extract_snippet` from `src/extractors/text.rs`.  The source function
returns `Some(snippet)` on every path it completes; `none` here models the
panic of a byte slice taken outside a character boundary (the byte offsets
are computed on the lowercased copies but applied to the original text). -/
def extract_snippet (text query : List Char) (context_chars : Nat) : Option (List Char) :=
  let query_lower := toLowerRust query
  let text_lower := toLowerRust text
  match findB text_lower query_lower with
  | some pos =>
    let start := pos - context_chars
    let stop := min (pos + utf8Len query + context_chars) (utf8Len text)
    (byteSlice text start stop).map (fun snippet =>
      let pre := if start > 0 then "...".toList else []
      let post := if stop < utf8Len text then "...".toList else []
      pre ++ snippet ++ post)
  | none =>
    if utf8Len text > context_chars * 2 then
      (byteSlice text 0 (context_chars * 2)).map (fun s => s ++ "...".toList)
    else some text

/-! ## `src/indexer/walker.rs` -/

/-- The two fields of `PrivacyConfig` that the walker's filtering logic
reads (`respect_ignore_files` only configures the external traversal
library and is not modelled). -/
structure PrivacyConfig where
  exclude_patterns : List (List Char)
  max_file_size : Nat

/-- `FileWalker::matches_pattern` from `src/indexer/walker.rs`.  `none`
models the panic of `&suffix[2..]` when the suffix after `**/` is a lone
`*` or its second byte is not a character boundary. -/
def matches_pattern (path pattern : List Char) : Option Bool :=
  if ("**/".toList).isPrefixOf pattern then
    let rest := pattern.drop 3
    if ("*".toList).isPrefixOf rest then
      (dropBytes rest 2).map (fun ext_pattern => endsWithB path ext_pattern)
    else some (containsB path rest)
  else if ("**".toList).isPrefixOf pattern then
    some (endsWithB path (pattern.drop 2))
  else
    some (containsB path pattern)

/-- Last `/`-separated component of a path (Rust `Path::file_name`). -/
def lastComponent (path : List Char) : List Char :=
  path.foldl (fun acc c => if c = '/' then [] else acc ++ [c]) []

/-- Split a file name at its last `.` (Rust `str::rsplit_once('.')`). -/
def rsplitOnceDot : List Char → Option (List Char × List Char)
  | [] => none
  | c :: cs =>
    match rsplitOnceDot cs with
    | some p => some (c :: p.1, p.2)
    | none => if c = '.' then some ([], cs) else none

/-- Rust `Path::extension`: the part of the file name after its last dot,
absent when there is no dot or the name starts with its only dot. -/
def pathExtension (path : List Char) : Option (List Char) :=
  match rsplitOnceDot (lastComponent path) with
  | some p => if p.1 = [] then none else some p.2
  | none => none

/-- `FileWalker::detect_file_type` from `src/indexer/walker.rs`. -/
def detect_file_type (path : List Char) : FileType :=
  match pathExtension path with
  | some ext => FileType.from_extension ext
  | none => .Unknown

/-- An entry produced by the underlying directory traversal
(the `ignore` crate), as seen by the filtering code of `FileWalker::walk`. -/
structure WalkEntry where
  path : List Char
  isDir : Bool
  size : Nat

/-- `DiscoveredFile` from `src/indexer/walker.rs`. -/
structure DiscoveredFile where
  path : List Char
  file_type : FileType
  size : Nat
deriving DecidableEq

/-- Short-circuiting `Iterator::any` over the exclude patterns;
a panic in `matches_pattern` propagates. -/
def anyMatch (path : List Char) : List (List Char) → Option Bool
  | [] => some false
  | p :: ps =>
    match matches_pattern path p with
    | none => none
    | some true => some true
    | some false => anyMatch path ps

/-- One iteration of the filtering loop of `FileWalker::walk`
(`src/indexer/walker.rs`): skip directories, excluded paths, oversized
files, and archives.  `some none` means the entry is skipped, `none`
models a pattern-matching panic.  Filesystem effects (metadata reads,
permission-denied recovery) are outside the model. -/
def walkStep (cfg : PrivacyConfig) (e : WalkEntry) : Option (Option DiscoveredFile) :=
  if e.isDir then some none
  else
    match anyMatch e.path cfg.exclude_patterns with
    | none => none
    | some true => some none
    | some false =>
      if e.size > cfg.max_file_size then some none
      else
        let ft := detect_file_type e.path
        if ft = FileType.Archive then some none
        else some (some { path := e.path, file_type := ft, size := e.size })

/-- The filtering pipeline of `FileWalker::walk` over the entries produced
by the underlying traversal. -/
def walkFilter (cfg : PrivacyConfig) : List WalkEntry → Option (List DiscoveredFile)
  | [] => some []
  | e :: es =>
    match walkStep cfg e with
    | none => none
    | some r =>
      (walkFilter cfg es).map (fun rest =>
        match r with
        | some d => d :: rest
        | none => rest)

/-! ## `src/search/mod.rs`: reciprocal rank fusion and hybrid search -/

/-- `types::SearchResult` from `src/lib.rs` (`f32` score as `ℚ`). -/
structure SearchResult where
  file_id : Int
  path : List Char
  filename : List Char
  score : ℚ
  snippet : Option (List Char)
deriving DecidableEq

/-- `*scores.entry(id).or_insert(0.0) += s` on the score `HashMap`,
modelled on an association list in first-insertion order. -/
def addScore (scores : List (Int × ℚ)) (fid : Int) (s : ℚ) : List (Int × ℚ) :=
  match scores with
  | [] => [(fid, s)]
  | kv :: rest => if kv.1 = fid then (kv.1, kv.2 + s) :: rest else kv :: addScore rest fid s

/-- Insertion into a descending-by-score list, keeping earlier elements
first on ties (`Vec::sort_by` is stable). -/
def insertDesc {α : Type} (x : α × ℚ) : List (α × ℚ) → List (α × ℚ)
  | [] => [x]
  | y :: l => if y.2 ≤ x.2 then x :: y :: l else y :: insertDesc x l

/-- `v.sort_by(|a, b| b.1.partial_cmp(&a.1)...)`: stable sort by score
descending. -/
def sortDesc {α : Type} (l : List (α × ℚ)) : List (α × ℚ) :=
  l.foldr insertDesc []

/-- `reciprocal_rank_fusion` from `src/search/mod.rs` (`K = 60.0`). -/
def reciprocal_rank_fusion (keyword_results : List SearchResult)
    (semantic_results : List (Int × ℚ)) (keyword_weight : ℚ) (limit : Nat) :
    List (Int × ℚ) :=
  let semantic_weight := 1 - keyword_weight
  let scores1 := keyword_results.enum.foldl
    (fun acc p => addScore acc p.2.file_id (keyword_weight / (60 + (p.1 : ℚ) + 1))) []
  let scores := semantic_results.enum.foldl
    (fun acc p => addScore acc p.2.1 (semantic_weight / (60 + (p.1 : ℚ) + 1))) scores1
  (sortDesc scores).take limit

/-- The `format!("file_{}", file_id)` placeholder. -/
def placeholderName (fid : Int) : List Char :=
  "file_".toList ++ (toString fid).toList

/-- `HybridSearch::hybrid_search` from `src/search/mod.rs`, taking the two
index result lists as inputs (the tantivy and vector-store lookups that
produce them are external components). -/
def hybrid_search_core (keyword_results : List SearchResult)
    (semantic_results : List (Int × ℚ)) (limit : Nat) (keyword_weight : ℚ) :
    List SearchResult :=
  if semantic_results.isEmpty then keyword_results.take limit
  else
    let combined := reciprocal_rank_fusion keyword_results semantic_results keyword_weight limit
    combined.map (fun p =>
      match keyword_results.find? (fun r => r.file_id == p.1) with
      | some r =>
        { file_id := p.1, path := r.path, filename := r.filename,
          score := p.2, snippet := r.snippet }
      | none =>
        { file_id := p.1, path := placeholderName p.1,
          filename := placeholderName p.1, score := p.2, snippet := none })

/-- The enrichment step as the spec describes it, for comparison with
`hybrid_search_core`: keyword hits first, then the metadata store `db`
for semantic-only ids, placeholder only when both fail. -/
def hybridEnrichClaim (db : Int → Option (List Char × List Char × Option (List Char)))
    (keyword_results : List SearchResult) (combined : List (Int × ℚ)) :
    List SearchResult :=
  combined.map (fun p =>
    match keyword_results.find? (fun r => r.file_id == p.1) with
    | some r =>
      { file_id := p.1, path := r.path, filename := r.filename,
        score := p.2, snippet := r.snippet }
    | none =>
      match db p.1 with
      | some payload =>
        { file_id := p.1, path := payload.1, filename := payload.2.1,
          score := p.2, snippet := payload.2.2 }
      | none =>
        { file_id := p.1, path := placeholderName p.1,
          filename := placeholderName p.1, score := p.2, snippet := none })

/-! ## `src/storage/vector_store.rs` -/

/-- `VectorStore` from `src/storage/vector_store.rs`: the `HashMap` is an
association list in first-insertion order. -/
structure VectorStore where
  dimension : Nat
  vectors : List (Int × List ℚ)
deriving DecidableEq

/-- `HashMap::insert`: replace the value of an existing key in place,
append a fresh key. -/
def insertAssoc (l : List (Int × List ℚ)) (k : Int) (v : List ℚ) : List (Int × List ℚ) :=
  match l with
  | [] => [(k, v)]
  | kv :: rest => if kv.1 = k then (kv.1, v) :: rest else kv :: insertAssoc rest k v

/-- `VectorStore::upsert`: the first component is the store after the call
(the source mutates `self` behind a lock; the early dimension-mismatch
return leaves it untouched). -/
def VectorStore.upsert (s : VectorStore) (file_id : Int) (embedding : List ℚ) :
    VectorStore × Except (List Char) Unit :=
  if embedding.length ≠ s.dimension then
    (s, .error ("Embedding dimension mismatch: expected ".toList ++
      (toString s.dimension).toList ++ ", got ".toList ++
      (toString embedding.length).toList))
  else
    ({ s with vectors := insertAssoc s.vectors file_id embedding }, .ok ())

/-- `cosine_similarity` from `src/storage/vector_store.rs` (the source
asserts equal lengths; its callers below always satisfy that). -/
def cosine_similarity (a b : List ℚ) : ℚ :=
  ((a.zip b).map (fun p => p.1 * p.2)).sum

/-- `VectorStore::search`. -/
def VectorStore.search (s : VectorStore) (q : List ℚ) (limit : Nat) :
    Except (List Char) (List (Int × ℚ)) :=
  if q.length ≠ s.dimension then
    .error ("Query embedding dimension mismatch: expected ".toList ++
      (toString s.dimension).toList ++ ", got ".toList ++ (toString q.length).toList)
  else
    .ok ((sortDesc (s.vectors.map (fun p => (p.1, cosine_similarity q p.2)))).take limit)

/-! JSON persistence (`save`/`load`).  `serde_json` text rendering and
the file system are external; the model keeps the JSON document as a tree with
decimal string keys, which is what `vectors.json` stores.  `serde_json`
round-trips `f32` values exactly, so numbers stay exact rationals. -/

/-- JSON documents as produced for `vectors.json`. -/
inductive Json where
  | num : ℚ → Json
  | arr : List Json → Json
  | obj : List (List Char × Json) → Json

/-- Decimal rendering of a natural number key. -/
def natKey (n : Nat) : List Char :=
  if n = 0 then ['0']
  else ((Nat.digits 10 n).reverse).map (fun d => Char.ofNat (48 + d))

/-- Decimal rendering of an `i64` map key, as `serde_json` writes it. -/
def intKey (i : Int) : List Char :=
  if i < 0 then '-' :: natKey i.natAbs else natKey i.toNat

/-- Parse one decimal digit. -/
def digitVal? (c : Char) : Option Nat :=
  if '0' ≤ c ∧ c ≤ '9' then some (c.toNat - 48) else none

/-- Parse a nonempty decimal numeral. -/
def natKey? (l : List Char) : Option Nat :=
  match l with
  | [] => none
  | _ :: _ => l.foldlM (fun acc c => (digitVal? c).map (fun d => 10 * acc + d)) 0

/-- Parse an `i64` map key. -/
def intKey? (l : List Char) : Option Int :=
  match l with
  | [] => none
  | c :: rest =>
    if c = '-' then (natKey? rest).map (fun n => -(n : Int))
    else (natKey? (c :: rest)).map (fun n => (n : Int))

/-- `VectorStore::save`: serialize `VectorStoreData { dimension, vectors }`. -/
def VectorStore.save (s : VectorStore) : Json :=
  .obj [("dimension".toList, .num (s.dimension : ℚ)),
        ("vectors".toList, .obj (s.vectors.map (fun p => (intKey p.1, .arr (p.2.map Json.num)))))]

/-- Deserialize a `usize` field. -/
def jsonNat? : Json → Option Nat
  | .num q => if q.den = 1 ∧ 0 ≤ q.num then some q.num.toNat else none
  | _ => none

/-- Deserialize an `f32` value. -/
def jsonRat? : Json → Option ℚ
  | .num q => some q
  | _ => none

/-- Deserialize a `Vec<f32>`. -/
def jsonVec? : Json → Option (List ℚ)
  | .arr items => items.mapM jsonRat?
  | _ => none

/-- Deserialize one map entry of the `vectors` object. -/
def jsonEntry? (kv : List Char × Json) : Option (Int × List ℚ) :=
  (intKey? kv.1).bind (fun i => (jsonVec? kv.2).map (fun vec => (i, vec)))

/-- Look up a field of a JSON object. -/
def lookupField (fields : List (List Char × Json)) (name : List Char) : Option Json :=
  (fields.find? (fun p => p.1 == name)).map (fun p => p.2)

/-- `VectorStore::load`: deserialize the saved document; corruption is an
error. -/
def VectorStore.load (j : Json) : Except (List Char) VectorStore :=
  match j with
  | .obj fields =>
    match lookupField fields "dimension".toList, lookupField fields "vectors".toList with
    | some dj, some (.obj ventries) =>
      match jsonNat? dj, ventries.mapM jsonEntry? with
      | some d, some vs => .ok { dimension := d, vectors := vs }
      | _, _ => .error "corrupt vector store file".toList
    | _, _ => .error "corrupt vector store file".toList
  | _ => .error "corrupt vector store file".toList

/-! ## `src/embedding/mod.rs`: L2 normalization -/

/-- `Σ x·x` over an embedding (`f32` as exact reals). -/
def normSq (v : List ℝ) : ℝ :=
  (v.map (fun x => x * x)).sum

/-- The `norm` local of `EmbeddingModel::normalize`. -/
noncomputable def rnorm (v : List ℝ) : ℝ :=
  Real.sqrt (normSq v)

/-- `EmbeddingModel::normalize` from `src/embedding/mod.rs`. -/
noncomputable def normalize (v : List ℝ) : List ℝ :=
  if 0 < rnorm v then v.map (fun x => x / rnorm v) else v

/-! ## Derived definitions used in the theorems below -/

/-- Value of an id in the score map (`0` when absent). -/
def lookupScore (l : List (Int × ℚ)) (i : Int) : ℚ :=
  ((l.find? (fun p => p.1 == i)).map Prod.snd).getD 0

/-- The per-id score that the claim's formula assigns: `w_list / (60 + r + 1)`
summed over the (at most one) occurrence of the id in each list, `r` the
0-based rank there. -/
def claimScore (kw : List SearchResult) (sem : List (Int × ℚ)) (w : ℚ) (i : Int) : ℚ :=
  (if i ∈ kw.map SearchResult.file_id
    then w / (60 + (((kw.map SearchResult.file_id).indexOf i : Nat) : ℚ) + 1) else 0) +
  (if i ∈ sem.map Prod.fst
    then (1 - w) / (60 + (((sem.map Prod.fst).indexOf i : Nat) : ℚ) + 1) else 0)

/-- The score map accumulated by `reciprocal_rank_fusion` before sorting. -/
def rrfScores (kw : List SearchResult) (sem : List (Int × ℚ)) (w : ℚ) : List (Int × ℚ) :=
  (List.enumFrom 0 sem).foldl
    (fun acc p => addScore acc (Prod.fst p.2)
      ((fun r : Nat => (1 - w) / (60 + (r : ℚ) + 1)) p.1))
    ((List.enumFrom 0 kw).foldl
      (fun acc p => addScore acc (SearchResult.file_id p.2)
        ((fun r : Nat => w / (60 + (r : ℚ) + 1)) p.1))
      [])

/-- The keyword list of the spec's RRF example E2 (scores 10.0, 8.0, 6.0,
matching the source's unit test). -/
def rrfExampleKeyword : List SearchResult :=
  [{ file_id := 1, path := "file1.txt".toList, filename := "file1.txt".toList,
     score := 10, snippet := none },
   { file_id := 2, path := "file2.txt".toList, filename := "file2.txt".toList,
     score := 8, snippet := none },
   { file_id := 3, path := "file3.txt".toList, filename := "file3.txt".toList,
     score := 6, snippet := none }]

/-- The semantic list of the spec's RRF example E2. -/
def rrfExampleSemantic : List (Int × ℚ) :=
  [(2, 95/100), (4, 9/10), (1, 85/100)]

/-- A metadata store that resolves id 4, for comparing `hybrid_search_core`
with the spec's described enrichment. -/
def exampleDb : Int → Option (List Char × List Char × Option (List Char)) :=
  fun i => if i = 4 then some ("real.txt".toList, "real.txt".toList, none) else none

/-- `HashMap::get` on the modelled store contents. -/
def lookupAssoc (l : List (Int × List ℚ)) (k : Int) : Option (List ℚ) :=
  (l.find? (fun p => p.1 == k)).map Prod.snd

/-- The `/`-separated segments of a path, for stating the claim's
"contains `X` as a path segment" reading. -/
def splitSlash : List Char → List (List Char)
  | [] => [[]]
  | c :: cs =>
    match splitSlash cs with
    | [] => [[c]]
    | s :: rest => if c = '/' then [] :: s :: rest else (c :: s) :: rest

/-- Every character is ASCII (one UTF-8 byte). -/
def asciiStr (l : List Char) : Prop := ∀ c ∈ l, utf8Size c = 1

/-- ASCII lowercasing of one character (what `to_lowercase` does on the
ASCII fragment). -/
def asciiLower (c : Char) : Char :=
  if 65 ≤ c.toNat ∧ c.toNat ≤ 90 then Char.ofNat (c.toNat + 32) else c

/-! ## Score-map and sorting lemmas -/

theorem lookupScore_nil (i : Int) : lookupScore [] i = 0 := rfl

theorem lookupScore_cons (kv : Int × ℚ) (l : List (Int × ℚ)) (i : Int) :
    lookupScore (kv :: l) i = if kv.1 = i then kv.2 else lookupScore l i := by
  by_cases h : kv.1 = i <;> simp [lookupScore, List.find?_cons, h]

theorem lookupScore_addScore (l : List (Int × ℚ)) (j : Int) (s : ℚ) (i : Int) :
    lookupScore (addScore l j s) i = lookupScore l i + if i = j then s else 0 := by
  induction l with
  | nil =>
    show lookupScore [(j, s)] i = lookupScore [] i + if i = j then s else 0
    rw [lookupScore_cons, lookupScore_nil]
    by_cases h : i = j
    · subst h; simp
    · rw [if_neg (fun hh => h hh.symm), if_neg h]; simp
  | cons kv rest ih =>
    by_cases hkj : kv.1 = j
    · show lookupScore (if kv.1 = j then (kv.1, kv.2 + s) :: rest else _) i = _
      rw [if_pos hkj, lookupScore_cons, lookupScore_cons]
      by_cases hik : kv.1 = i
      · have hij : i = j := hik ▸ hkj
        simp [hik, hij]
      · have hij : i ≠ j := fun h => hik (hkj.symm ▸ h.symm ▸ rfl)
        simp [hik, hij]
    · show lookupScore (if kv.1 = j then _ else kv :: addScore rest j s) i = _
      rw [if_neg hkj, lookupScore_cons, lookupScore_cons]
      by_cases hik : kv.1 = i
      · have hij : i ≠ j := fun h => hkj (hik.trans h)
        simp [hik, hij]
      · simp [hik, ih]

theorem keys_addScore (l : List (Int × ℚ)) (j : Int) (s : ℚ) :
    (addScore l j s).map Prod.fst =
      if j ∈ l.map Prod.fst then l.map Prod.fst else l.map Prod.fst ++ [j] := by
  induction l with
  | nil => simp [addScore]
  | cons kv rest ih =>
    by_cases hkj : kv.1 = j
    · simp [addScore, hkj]
    · have hne : ¬(j = kv.1) := fun h => hkj h.symm
      by_cases hj : j ∈ rest.map Prod.fst <;>
        simp [addScore, hkj, ih, hj, hne]

theorem mem_keys_addScore (l : List (Int × ℚ)) (j : Int) (s : ℚ) (i : Int) :
    i ∈ (addScore l j s).map Prod.fst ↔ i ∈ l.map Prod.fst ∨ i = j := by
  rw [keys_addScore]
  by_cases hj : j ∈ l.map Prod.fst
  · simp only [hj, if_true]
    constructor
    · exact Or.inl
    · rintro (h | rfl) <;> [exact h; exact hj]
  · simp [hj, or_comm]

theorem nodup_keys_addScore (l : List (Int × ℚ)) (j : Int) (s : ℚ)
    (h : (l.map Prod.fst).Nodup) : ((addScore l j s).map Prod.fst).Nodup := by
  rw [keys_addScore]
  by_cases hj : j ∈ l.map Prod.fst
  · simpa [hj]
  · simpa [hj, List.nodup_append] using h

theorem addScore_of_not_mem (l : List (Int × ℚ)) (j : Int) (s : ℚ)
    (h : j ∉ l.map Prod.fst) : addScore l j s = l ++ [(j, s)] := by
  induction l with
  | nil => simp [addScore]
  | cons kv rest ih =>
    simp only [List.map_cons, List.mem_cons] at h
    push_neg at h
    have hne : ¬(kv.1 = j) := fun hh => h.1 hh.symm
    simp [addScore, hne, ih h.2]

theorem snd_eq_lookupScore (l : List (Int × ℚ)) (p : Int × ℚ)
    (h : (l.map Prod.fst).Nodup) (hp : p ∈ l) : p.2 = lookupScore l p.1 := by
  induction l with
  | nil => cases hp
  | cons kv rest ih =>
    simp only [List.map_cons, List.nodup_cons] at h
    rcases List.mem_cons.mp hp with rfl | hmem
    · simp [lookupScore_cons]
    · rw [lookupScore_cons, if_neg, ih h.2 hmem]
      intro he
      exact h.1 (he ▸ List.mem_map_of_mem Prod.fst hmem)

theorem perm_insertDesc {α : Type} (x : α × ℚ) (l : List (α × ℚ)) :
    List.Perm (insertDesc x l) (x :: l) := by
  induction l with
  | nil => simp [insertDesc]
  | cons y rest ih =>
    by_cases h : y.2 ≤ x.2
    · simp [insertDesc, h]
    · simp only [insertDesc, if_neg h]
      exact (ih.cons y).trans (List.Perm.swap x y rest)

theorem perm_sortDesc {α : Type} (l : List (α × ℚ)) : List.Perm (sortDesc l) l := by
  induction l with
  | nil => rfl
  | cons x rest ih =>
    exact (perm_insertDesc x (sortDesc rest)).trans (ih.cons x)

theorem sorted_insertDesc {α : Type} (x : α × ℚ) (l : List (α × ℚ))
    (h : l.Pairwise (fun a b => b.2 ≤ a.2)) :
    (insertDesc x l).Pairwise (fun a b => b.2 ≤ a.2) := by
  induction l with
  | nil => simp [insertDesc]
  | cons y rest ih =>
    rcases List.pairwise_cons.mp h with ⟨hy, hrest⟩
    by_cases hle : y.2 ≤ x.2
    · simp only [insertDesc, if_pos hle]
      refine List.pairwise_cons.mpr ⟨?_, h⟩
      intro b hb
      rcases List.mem_cons.mp hb with rfl | hbmem
      · exact hle
      · exact (hy b hbmem).trans hle
    · simp only [insertDesc, if_neg hle]
      refine List.pairwise_cons.mpr ⟨?_, ih hrest⟩
      intro b hb
      rcases List.mem_cons.mp ((perm_insertDesc x rest).mem_iff.mp hb) with rfl | hbmem
      · exact le_of_not_le hle
      · exact hy b hbmem

theorem sorted_sortDesc {α : Type} (l : List (α × ℚ)) :
    (sortDesc l).Pairwise (fun a b => b.2 ≤ a.2) := by
  induction l with
  | nil => simp [sortDesc]
  | cons x rest ih => exact sorted_insertDesc x (sortDesc rest) ih

theorem insertDesc_of_le {α : Type} (x : α × ℚ) (l : List (α × ℚ))
    (h : ∀ y ∈ l, y.2 ≤ x.2) : insertDesc x l = x :: l := by
  cases l with
  | nil => rfl
  | cons y rest => simp [insertDesc, h y (List.mem_cons_self y rest)]

theorem sortDesc_of_sorted {α : Type} (l : List (α × ℚ))
    (h : l.Pairwise (fun a b => b.2 ≤ a.2)) : sortDesc l = l := by
  induction l with
  | nil => rfl
  | cons x rest ih =>
    rcases List.pairwise_cons.mp h with ⟨hx, hrest⟩
    show insertDesc x (sortDesc rest) = x :: rest
    rw [ih hrest]
    exact insertDesc_of_le x rest hx

theorem lookup_foldl_enumFrom {α : Type} (proj : α → Int) (W : Nat → ℚ) :
    ∀ (l : List α) (n : Nat) (init : List (Int × ℚ)) (i : Int),
      (l.map proj).Nodup →
      lookupScore ((List.enumFrom n l).foldl
          (fun acc p => addScore acc (proj p.2) (W p.1)) init) i
        = lookupScore init i +
          (if i ∈ l.map proj then W (n + (l.map proj).indexOf i) else 0) := by
  intro l
  induction l with
  | nil => intro n init i _; simp [List.enumFrom]
  | cons x xs ih =>
    intro n init i hnd
    simp only [List.map_cons, List.nodup_cons] at hnd
    show lookupScore ((List.enumFrom (n + 1) xs).foldl _
      (addScore init (proj x) (W n))) i = _
    rw [ih (n + 1) (addScore init (proj x) (W n)) i hnd.2, lookupScore_addScore]
    simp only [List.map_cons]
    by_cases hip : i = proj x
    · subst hip
      rw [if_neg hnd.1, if_pos rfl, if_pos (List.mem_cons_self _ _)]
      simp [List.indexOf_cons_self]
    · rw [if_neg hip]
      by_cases hmem : i ∈ xs.map proj
      · rw [if_pos hmem, if_pos (List.mem_cons_of_mem _ hmem)]
        rw [List.indexOf_cons_ne _ (fun h => hip h.symm)]
        have harith : n + 1 + (xs.map proj).indexOf i = n + ((xs.map proj).indexOf i + 1) := by
          omega
        simp [harith]
      · rw [if_neg hmem, if_neg, add_zero, add_zero]
        intro hc
        rcases List.mem_cons.mp hc with h | h
        · exact hip h
        · exact hmem h

theorem mem_keys_foldl_enumFrom {α : Type} (proj : α → Int) (W : Nat → ℚ) :
    ∀ (l : List α) (n : Nat) (init : List (Int × ℚ)) (i : Int),
      (i ∈ ((List.enumFrom n l).foldl
          (fun acc p => addScore acc (proj p.2) (W p.1)) init).map Prod.fst
        ↔ i ∈ init.map Prod.fst ∨ i ∈ l.map proj) := by
  intro l
  induction l with
  | nil => intro n init i; simp [List.enumFrom]
  | cons x xs ih =>
    intro n init i
    show i ∈ ((List.enumFrom (n + 1) xs).foldl _ (addScore init (proj x) (W n))).map Prod.fst ↔ _
    rw [ih (n + 1) (addScore init (proj x) (W n)) i, mem_keys_addScore]
    simp only [List.map_cons, List.mem_cons]
    tauto

theorem nodup_keys_foldl_enumFrom {α : Type} (proj : α → Int) (W : Nat → ℚ) :
    ∀ (l : List α) (n : Nat) (init : List (Int × ℚ)),
      (init.map Prod.fst).Nodup →
      (((List.enumFrom n l).foldl
          (fun acc p => addScore acc (proj p.2) (W p.1)) init).map Prod.fst).Nodup := by
  intro l
  induction l with
  | nil => intro n init h; simpa [List.enumFrom] using h
  | cons x xs ih =>
    intro n init h
    exact ih (n + 1) (addScore init (proj x) (W n)) (nodup_keys_addScore _ _ _ h)

theorem foldl_enumFrom_disjoint {α : Type} (proj : α → Int) (W : Nat → ℚ) :
    ∀ (l : List α) (n : Nat) (init : List (Int × ℚ)),
      (∀ x ∈ l, proj x ∉ init.map Prod.fst) → (l.map proj).Nodup →
      (List.enumFrom n l).foldl (fun acc p => addScore acc (proj p.2) (W p.1)) init
        = init ++ (List.enumFrom n l).map (fun p => (proj p.2, W p.1)) := by
  intro l
  induction l with
  | nil => intro n init _ _; simp [List.enumFrom]
  | cons x xs ih =>
    intro n init hdisj hnd
    simp only [List.map_cons, List.nodup_cons] at hnd
    show (List.enumFrom (n + 1) xs).foldl _ (addScore init (proj x) (W n)) = _
    rw [addScore_of_not_mem init (proj x) (W n) (hdisj x (List.mem_cons_self _ _))]
    rw [ih (n + 1) (init ++ [(proj x, W n)]) ?_ hnd.2]
    · simp [List.enumFrom]
    · intro y hy
      simp only [List.map_append, List.mem_append, List.map_cons, List.map_nil,
        List.mem_singleton, not_or]
      refine ⟨hdisj y (List.mem_cons_of_mem _ hy), ?_⟩
      intro hc
      exact hnd.1 (hc ▸ List.mem_map_of_mem proj hy)

theorem reciprocal_rank_fusion_eq (kw : List SearchResult) (sem : List (Int × ℚ))
    (w : ℚ) (limit : Nat) :
    reciprocal_rank_fusion kw sem w limit = (sortDesc (rrfScores kw sem w)).take limit := rfl

theorem nodup_keys_rrfScores (kw : List SearchResult) (sem : List (Int × ℚ)) (w : ℚ) :
    ((rrfScores kw sem w).map Prod.fst).Nodup := by
  rw [rrfScores]
  exact nodup_keys_foldl_enumFrom Prod.fst (fun r : Nat => (1 - w) / (60 + (r : ℚ) + 1)) sem 0 _
    (nodup_keys_foldl_enumFrom SearchResult.file_id (fun r : Nat => w / (60 + (r : ℚ) + 1))
      kw 0 [] (by simp))

theorem mem_keys_rrfScores (kw : List SearchResult) (sem : List (Int × ℚ)) (w : ℚ) (i : Int) :
    i ∈ (rrfScores kw sem w).map Prod.fst ↔
      i ∈ kw.map SearchResult.file_id ∨ i ∈ sem.map Prod.fst := by
  rw [rrfScores,
    mem_keys_foldl_enumFrom Prod.fst (fun r : Nat => (1 - w) / (60 + (r : ℚ) + 1)) sem 0 _ i,
    mem_keys_foldl_enumFrom SearchResult.file_id (fun r : Nat => w / (60 + (r : ℚ) + 1)) kw 0 [] i]
  simp [or_comm]

theorem lookupScore_rrfScores (kw : List SearchResult) (sem : List (Int × ℚ)) (w : ℚ) (i : Int)
    (hkw : (kw.map SearchResult.file_id).Nodup) (hsem : (sem.map Prod.fst).Nodup) :
    lookupScore (rrfScores kw sem w) i = claimScore kw sem w i := by
  rw [rrfScores,
    lookup_foldl_enumFrom Prod.fst (fun r : Nat => (1 - w) / (60 + (r : ℚ) + 1)) sem 0 _ i hsem,
    lookup_foldl_enumFrom SearchResult.file_id (fun r : Nat => w / (60 + (r : ℚ) + 1)) kw 0 [] i hkw,
    lookupScore_nil, claimScore]
  simp [add_comm]

/-! ## C1 and C4: reciprocal rank fusion -/

/-- C1. The reciprocal rank fusion of a keyword result list and a semantic
result list assigns every document id `d` the score
`Σ w_list / (60 + r + 1)` over the two lists (`r` its 0-based rank there,
`w_keyword = keyword_weight`, `w_semantic = 1 - keyword_weight`), and
returns the ids sorted by summed score descending, truncated to `limit`;
on the E2 example with weight 1/2 the output order is 2, 1, 4, 3. -/
theorem C1_reciprocal_rank_fusion (kw : List SearchResult) (sem : List (Int × ℚ))
    (w : ℚ) (limit : Nat)
    (hkw : (kw.map SearchResult.file_id).Nodup) (hsem : (sem.map Prod.fst).Nodup) :
    (∃ full : List (Int × ℚ),
      reciprocal_rank_fusion kw sem w limit = full.take limit ∧
      full.Pairwise (fun a b => b.2 ≤ a.2) ∧
      (∀ i : Int, i ∈ full.map Prod.fst ↔
        (i ∈ kw.map SearchResult.file_id ∨ i ∈ sem.map Prod.fst)) ∧
      (∀ p ∈ full, p.2 = claimScore kw sem w p.1)) ∧
    (reciprocal_rank_fusion rrfExampleKeyword rrfExampleSemantic (1/2) 10).map Prod.fst
      = [2, 1, 4, 3] := by
  constructor
  · refine ⟨sortDesc (rrfScores kw sem w),
      reciprocal_rank_fusion_eq kw sem w limit, sorted_sortDesc _, ?_, ?_⟩
    · intro i
      rw [((perm_sortDesc (rrfScores kw sem w)).map Prod.fst).mem_iff]
      exact mem_keys_rrfScores kw sem w i
    · intro p hp
      have hmem : p ∈ rrfScores kw sem w := (perm_sortDesc _).mem_iff.mp hp
      rw [snd_eq_lookupScore _ p (nodup_keys_rrfScores kw sem w) hmem]
      exact lookupScore_rrfScores kw sem w p.1 hkw hsem
  · norm_num [reciprocal_rank_fusion, rrfExampleKeyword, rrfExampleSemantic,
      List.enum, List.enumFrom, addScore, sortDesc, insertDesc]

/-- Witness for C1 at the E2 example inputs. -/
theorem C1_reciprocal_rank_fusion_witness :
    (rrfExampleKeyword.map SearchResult.file_id).Nodup ∧
    (rrfExampleSemantic.map Prod.fst).Nodup ∧
    (reciprocal_rank_fusion rrfExampleKeyword rrfExampleSemantic (1/2) 10).map Prod.fst
      = [2, 1, 4, 3] :=
  ⟨by decide, by decide,
    (C1_reciprocal_rank_fusion rrfExampleKeyword rrfExampleSemantic (1/2) 10
      (by decide) (by decide)).2⟩

theorem le_fst_of_mem_enumFrom {α : Type} :
    ∀ (l : List α) (m : Nat) (b : Nat × α), b ∈ List.enumFrom m l → m ≤ b.1 := by
  intro l
  induction l with
  | nil => intro m b hb; cases hb
  | cons x xs ih =>
    intro m b hb
    rcases List.mem_cons.mp hb with rfl | hmem
    · exact Nat.le_refl m
    · exact Nat.le_of_succ_le (ih (m + 1) b hmem)

theorem pairwise_fst_lt_enumFrom {α : Type} :
    ∀ (l : List α) (m : Nat), (List.enumFrom m l).Pairwise (fun a b => a.1 < b.1) := by
  intro l
  induction l with
  | nil => intro m; simp [List.enumFrom]
  | cons x xs ih =>
    intro m
    refine List.pairwise_cons.mpr ⟨?_, ih (m + 1)⟩
    intro b hb
    exact Nat.lt_of_succ_le (le_fst_of_mem_enumFrom xs (m + 1) b hb)

/-- C4. Degenerate inputs of hybrid fusion: an empty semantic list returns
the keyword list verbatim truncated to `limit`; an empty keyword list
returns the semantic list in order, scored by its RRF contribution alone;
two empty lists yield an empty output. -/
theorem C4_degenerate_fusion (kw : List SearchResult) (sem : List (Int × ℚ))
    (limit : Nat) (w : ℚ) :
    (sem = [] → hybrid_search_core kw sem limit w = kw.take limit) ∧
    ((sem.map Prod.fst).Nodup → 0 ≤ w → w ≤ 1 →
      hybrid_search_core [] sem limit w
        = ((List.enumFrom 0 sem).map (fun p =>
            ({ file_id := p.2.1, path := placeholderName p.2.1,
               filename := placeholderName p.2.1,
               score := (1 - w) / (60 + (p.1 : ℚ) + 1),
               snippet := none } : SearchResult))).take limit) ∧
    (hybrid_search_core [] [] limit w = []) := by
  refine ⟨?_, ?_, ?_⟩
  · rintro rfl
    simp [hybrid_search_core]
  · intro hsem hw0 hw1
    cases sem with
    | nil => simp [hybrid_search_core]
    | cons x rest =>
      have hscores : rrfScores [] (x :: rest) w
          = (List.enumFrom 0 (x :: rest)).map
              (fun p => (Prod.fst p.2, (fun r : Nat => (1 - w) / (60 + (r : ℚ) + 1)) p.1)) := by
        rw [rrfScores]
        show (List.enumFrom 0 (x :: rest)).foldl _ ([] : List (Int × ℚ)) = _
        rw [foldl_enumFrom_disjoint Prod.fst
          (fun r : Nat => (1 - w) / (60 + (r : ℚ) + 1)) (x :: rest) 0 [] (by simp) hsem]
        simp
      have hsorted : ((List.enumFrom 0 (x :: rest)).map
          (fun p => (Prod.fst p.2, (fun r : Nat => (1 - w) / (60 + (r : ℚ) + 1)) p.1))).Pairwise
            (fun a b => b.2 ≤ a.2) := by
        refine List.Pairwise.map _ ?_ (pairwise_fst_lt_enumFrom (x :: rest) 0)
        intro a b hab
        have hb : (0 : ℚ) ≤ 1 - w := by linarith
        have hd : (60 : ℚ) + (a.1 : ℚ) + 1 ≤ 60 + (b.1 : ℚ) + 1 := by
          have : (a.1 : ℚ) ≤ (b.1 : ℚ) := by exact_mod_cast Nat.le_of_lt hab
          linarith
        have hpos : (0 : ℚ) < 60 + (a.1 : ℚ) + 1 := by positivity
        exact div_le_div_of_nonneg_left hb hpos hd
      show (reciprocal_rank_fusion [] (x :: rest) w limit).map _ = _
      rw [reciprocal_rank_fusion_eq, hscores, sortDesc_of_sorted _ hsorted,
        ← List.map_take, List.map_map, List.map_take]
      rfl
  · simp [hybrid_search_core]

/-- Witness for C4 on a one-element semantic list with weight 1/2. -/
theorem C4_degenerate_fusion_witness :
    hybrid_search_core [] [((1 : Int), (1 : ℚ))] 5 (1/2)
      = ((List.enumFrom 0 [((1 : Int), (1 : ℚ))]).map (fun p =>
          ({ file_id := p.2.1, path := placeholderName p.2.1,
             filename := placeholderName p.2.1,
             score := (1 - 1/2) / (60 + (p.1 : ℚ) + 1),
             snippet := none } : SearchResult))).take 5 :=
  (C4_degenerate_fusion [] [((1 : Int), (1 : ℚ))] 5 (1/2)).2.1
    (by decide) (by norm_num) (by norm_num)

/-! ## C2: payload re-attachment after fusion -/

/-- C2 counterexample: a semantic-only id that the metadata store can
resolve is still reported with the placeholder filename `file_4`, because
`hybrid_search` never consults the metadata store. -/
theorem C2_counterexample :
    (hybrid_search_core [] [((4 : Int), (9/10 : ℚ))] 10 (1/2)).map SearchResult.filename
      = ["file_4".toList] ∧
    (hybridEnrichClaim exampleDb []
        (reciprocal_rank_fusion [] [((4 : Int), (9/10 : ℚ))] (1/2) 10)).map SearchResult.filename
      = ["real.txt".toList] ∧
    ("file_4".toList : List Char) ≠ "real.txt".toList :=
  ⟨rfl, rfl, by decide⟩

/-- C2 as the code implements it: payload comes from the keyword hits only;
every fused id absent from the keyword hits gets the placeholder path and
filename `file_{id}` and no snippet, and the result list keeps the length
of the fusion output. -/
theorem C2_enrichment_amended (kw : List SearchResult) (sem : List (Int × ℚ))
    (limit : Nat) (w : ℚ) (hsem : sem ≠ []) :
    (hybrid_search_core kw sem limit w).length
      = (reciprocal_rank_fusion kw sem w limit).length ∧
    ∀ r ∈ hybrid_search_core kw sem limit w,
      (∃ k ∈ kw, k.file_id = r.file_id ∧ r.path = k.path ∧ r.filename = k.filename ∧
        r.snippet = k.snippet) ∨
      ((∀ k ∈ kw, k.file_id ≠ r.file_id) ∧ r.path = placeholderName r.file_id ∧
        r.filename = placeholderName r.file_id ∧ r.snippet = none) := by
  have hne : ¬(sem.isEmpty = true) := by
    cases sem with
    | nil => exact absurd rfl hsem
    | cons x xs => simp
  constructor
  · rw [hybrid_search_core, if_neg hne]
    exact List.length_map _ _
  · intro r hr
    rw [hybrid_search_core, if_neg hne] at hr
    obtain ⟨p, hp, rfl⟩ := List.mem_map.mp hr
    cases hfind : kw.find? (fun r => r.file_id == p.1) with
    | none =>
      refine Or.inr ⟨?_, rfl, rfl, rfl⟩
      intro k hk
      have := List.find?_eq_none.mp hfind k hk
      simpa using this
    | some k =>
      refine Or.inl ⟨k, List.mem_of_find?_eq_some hfind, ?_, rfl, rfl, rfl⟩
      simpa using List.find?_some hfind

/-- Witness for C2's amended theorem on a one-element semantic list. -/
theorem C2_enrichment_amended_witness :
    (hybrid_search_core [] [((4 : Int), (9/10 : ℚ))] 10 (1/2)).length
      = (reciprocal_rank_fusion [] [((4 : Int), (9/10 : ℚ))] (1/2) 10).length :=
  (C2_enrichment_amended [] [((4 : Int), (9/10 : ℚ))] 10 (1/2) (by simp)).1

/-! ## C6: vector store dimension guard -/

theorem lookupAssoc_insertAssoc (l : List (Int × List ℚ)) (k : Int) (v : List ℚ) :
    lookupAssoc (insertAssoc l k v) k = some v := by
  induction l with
  | nil => simp [insertAssoc, lookupAssoc, List.find?]
  | cons kv rest ih =>
    by_cases h : kv.1 = k
    · simp [insertAssoc, h, lookupAssoc, List.find?_cons]
    · simpa [insertAssoc, h, lookupAssoc, List.find?_cons] using ih

/-- C6. `upsert` with a vector of the wrong length errors and leaves the
store unchanged; with the right length it succeeds and maps the id to the
vector. -/
theorem C6_upsert_guard (s : VectorStore) (fid : Int) (v : List ℚ) :
    (v.length ≠ s.dimension →
      (s.upsert fid v).1 = s ∧ ∃ msg, (s.upsert fid v).2 = .error msg) ∧
    (v.length = s.dimension →
      (s.upsert fid v).2 = .ok () ∧
      (s.upsert fid v).1.dimension = s.dimension ∧
      lookupAssoc (s.upsert fid v).1.vectors fid = some v) := by
  constructor
  · intro h
    constructor
    · simp [VectorStore.upsert, h]
    · exact ⟨_, by rw [VectorStore.upsert, if_pos h]⟩
  · intro h
    simp [VectorStore.upsert, h, lookupAssoc_insertAssoc]

/-- Witness for C6: a dimension-2 store rejects a length-1 vector unchanged
and accepts a length-2 vector. -/
theorem C6_upsert_guard_witness :
    ((VectorStore.mk 2 []).upsert 1 [(1 : ℚ)]).1 = VectorStore.mk 2 [] ∧
    ((VectorStore.mk 2 []).upsert 1 [(1 : ℚ), 2]).2 = .ok () ∧
    lookupAssoc ((VectorStore.mk 2 []).upsert 1 [(1 : ℚ), 2]).1.vectors 1 = some [1, 2] :=
  ⟨((C6_upsert_guard ⟨2, []⟩ 1 [(1 : ℚ)]).1 (by decide)).1,
   ((C6_upsert_guard ⟨2, []⟩ 1 [(1 : ℚ), 2]).2 (by decide)).1,
   ((C6_upsert_guard ⟨2, []⟩ 1 [(1 : ℚ), 2]).2 (by decide)).2.2⟩

/-! ## C9: file-type round trip -/

/-- C9 counterexample: decoding the stored strings of the `Image` and
`Code` kinds yields `Unknown`, not the original kind (and not `Code`). -/
theorem C9_counterexample :
    FileType.from_extension (FileType.as_str FileType.Image) = FileType.Unknown ∧
    FileType.from_extension (FileType.as_str FileType.Code) = FileType.Unknown ∧
    FileType.Unknown ≠ FileType.Image ∧ FileType.Unknown ≠ FileType.Code := by
  refine ⟨by decide, by decide, by decide, by decide⟩

/-- C9 amended: the decode of the stored `file_type` string returns the
original kind exactly for `Text`, `Markdown`, `Pdf`, `Docx`, `Xlsx` and
`Unknown`; the kinds `Code`, `Image` and `Archive` all decode to `Unknown`,
so `get_file` reports those files as `Unknown`. -/
theorem C9_filetype_roundtrip_amended (k : FileType) :
    decodeStoredFileType (FileType.as_str k)
      = (if k = FileType.Code ∨ k = FileType.Image ∨ k = FileType.Archive
          then FileType.Unknown else k) := by
  cases k <;> decide

/-! ## C10: snippet extraction can panic -/

/-- C10. `extract_snippet` is not total: on `text = "İé"`, `query = "é"`,
radius 0, the match is found at byte 3 of the lowercased text (lowercasing
`İ` produces the 3-byte `i̇`), and `&text[3..4]` falls inside the 2-byte
`é` of the original text, so the slice panics (modelled by `none`). -/
theorem C10_snippet_panics :
    extract_snippet ("İé".toList) ("é".toList) 0 = none := by decide

/-! ## C3: the walker pattern language -/

/-- C3 counterexample: `**/*.key` matches `/path/monkey`, which does not
end in `.key` (the code drops the dot), and `**/.git` matches
`/a/mygit.github/x`, which contains `.git` only as a substring, not as a
path segment. -/
theorem C3_counterexample :
    matches_pattern "/path/monkey".toList "**/*.key".toList = some true ∧
    endsWithB "/path/monkey".toList ".key".toList = false ∧
    matches_pattern "/a/mygit.github/x".toList "**/.git".toList = some true ∧
    ".git".toList ∉ splitSlash "/a/mygit.github/x".toList := by
  refine ⟨by decide, by decide, by decide, by decide⟩

theorem walkStep_kept (cfg : PrivacyConfig) (x : WalkEntry) (d : DiscoveredFile)
    (h : walkStep cfg x = some (some d)) :
    d.path = x.path ∧ anyMatch x.path cfg.exclude_patterns = some false := by
  unfold walkStep at h
  by_cases hd : x.isDir = true
  · rw [if_pos hd] at h; cases h
  · rw [if_neg hd] at h
    cases hm : anyMatch x.path cfg.exclude_patterns with
    | none => rw [hm] at h; cases h
    | some b =>
      cases b with
      | true => rw [hm] at h; cases h
      | false =>
        rw [hm] at h
        by_cases hs : x.size > cfg.max_file_size
        · rw [if_pos hs] at h; cases h
        · rw [if_neg hs] at h
          by_cases ha : detect_file_type x.path = FileType.Archive
          · rw [if_pos ha] at h; cases h
          · rw [if_neg ha] at h
            injection h with h
            injection h with h
            exact ⟨(congrArg DiscoveredFile.path h).symm, rfl⟩

theorem walk_skips_matching (cfg : PrivacyConfig) (p : List Char)
    (hmatch : anyMatch p cfg.exclude_patterns = some true) :
    ∀ (entries : List WalkEntry) (out : List DiscoveredFile),
      walkFilter cfg entries = some out → p ∉ out.map DiscoveredFile.path := by
  intro entries
  induction entries with
  | nil =>
    intro out hw
    rw [walkFilter] at hw
    injection hw with hw
    subst hw
    simp
  | cons x xs ih =>
    intro out hw
    rw [walkFilter] at hw
    cases hstep : walkStep cfg x with
    | none => rw [hstep] at hw; cases hw
    | some r =>
      rw [hstep] at hw
      cases hrest : walkFilter cfg xs with
      | none => rw [hrest] at hw; cases hw
      | some rest =>
        rw [hrest] at hw
        injection hw with hw
        subst hw
        cases r with
        | none => exact ih rest hrest
        | some d =>
          simp only [List.map_cons, List.mem_cons, not_or]
          refine ⟨?_, ih rest hrest⟩
          intro hpd
          obtain ⟨hdp, hfalse⟩ := walkStep_kept cfg x d hstep
          rw [hpd, hdp] at hmatch
          rw [hmatch] at hfalse
          cases hfalse

/-- C3 amended to the code's behavior: `**/X` (with `X` not starting in
`*`) matches paths containing `X` as a substring (not as a segment);
`**/*.E` matches paths ending in `E` with the dot dropped; `**X` matches
paths with suffix `X`; any other pattern is a substring match; and any
entry whose path matches some exclude pattern is absent from the walk
output. -/
theorem C3_pattern_amended :
    (∀ path rest : List Char, rest.head? ≠ some '*' →
      matches_pattern path ("**/".toList ++ rest) = some (containsB path rest)) ∧
    (∀ path e : List Char,
      matches_pattern path ("**/*.".toList ++ e) = some (endsWithB path e)) ∧
    (∀ path rest : List Char, rest.head? ≠ some '/' →
      matches_pattern path ('*' :: '*' :: rest) = some (endsWithB path rest)) ∧
    (∀ path pattern : List Char, pattern.take 2 ≠ ['*', '*'] →
      matches_pattern path pattern = some (containsB path pattern)) ∧
    (∀ (cfg : PrivacyConfig) (p : List Char),
      anyMatch p cfg.exclude_patterns = some true →
      ∀ (entries : List WalkEntry) (out : List DiscoveredFile),
        walkFilter cfg entries = some out → p ∉ out.map DiscoveredFile.path) := by
  refine ⟨?_, ?_, ?_, ?_, walk_skips_matching⟩
  · intro path rest h
    rw [matches_pattern]
    rw [if_pos (by
      refine List.isPrefixOf_iff_prefix.mpr ⟨rest, rfl⟩)]
    have hdrop : ("**/".toList ++ rest).drop 3 = rest := rfl
    rw [hdrop]
    rw [if_neg ?_]
    cases rest with
    | nil => decide
    | cons r rs =>
      have hr : ¬('*' = r) := by
        intro he
        exact h (by rw [← he]; rfl)
      simp [List.isPrefixOf, hr]
  · intro path e
    rw [matches_pattern]
    rw [if_pos (by
      refine List.isPrefixOf_iff_prefix.mpr ⟨'*' :: '.' :: e, rfl⟩)]
    have hdrop : ("**/*.".toList ++ e).drop 3 = '*' :: '.' :: e := rfl
    rw [hdrop]
    rw [if_pos (by
      refine List.isPrefixOf_iff_prefix.mpr ⟨'.' :: e, rfl⟩)]
    have h2 : dropBytes ('*' :: '.' :: e) 2 = some e := by
      have hstar : utf8Size '*' = 1 := by decide
      have hdot : utf8Size '.' = 1 := by decide
      norm_num [dropBytes, hstar, hdot]
    rw [h2]
    rfl
  · intro path rest h
    rw [matches_pattern]
    rw [if_neg ?_, if_pos (by
      refine List.isPrefixOf_iff_prefix.mpr ⟨rest, rfl⟩)]
    · rfl
    · intro hc
      obtain ⟨t, ht⟩ := List.isPrefixOf_iff_prefix.mp hc
      have : rest.head? = some '/' := by
        cases rest with
        | nil => cases ht
        | cons r rs =>
          injection ht with h1 h2
          injection h2 with h2 h3
          injection h3 with h3 h4
          rw [h3]
          rfl
      exact h this
  · intro path pattern h
    rw [matches_pattern]
    rw [if_neg ?_, if_neg ?_]
    · intro hc
      obtain ⟨t, ht⟩ := List.isPrefixOf_iff_prefix.mp hc
      rw [← ht] at h
      exact h rfl
    · intro hc
      obtain ⟨t, ht⟩ := List.isPrefixOf_iff_prefix.mp hc
      rw [← ht] at h
      exact h rfl

/-- Witness for C3 at a concrete pattern, path, and one-entry walk. -/
theorem C3_pattern_amended_witness :
    matches_pattern "/path/to/.git/f".toList ("**/".toList ++ ".git".toList)
      = some (containsB "/path/to/.git/f".toList ".git".toList) ∧
    "/s/secret.key".toList ∉
      (([] : List DiscoveredFile)).map DiscoveredFile.path :=
  ⟨C3_pattern_amended.1 "/path/to/.git/f".toList ".git".toList (by decide),
   C3_pattern_amended.2.2.2.2
     ⟨["**/*.key".toList], 100⟩ "/s/secret.key".toList (by decide)
     [⟨"/s/secret.key".toList, false, 10⟩] [] (by decide)⟩

/-! ## C5: snippet laws on ASCII inputs -/

theorem ascii_toNat (c : Char) (h : utf8Size c = 1) : c.toNat ≤ 127 := by
  by_contra hc
  unfold utf8Size at h
  rw [if_neg (by omega)] at h
  split at h
  · omega
  · split at h <;> omega

theorem ofNat_lower_toNat (n : Nat) (h1 : 65 ≤ n) (h2 : n ≤ 90) :
    (Char.ofNat (n + 32)).toNat = n + 32 := by
  interval_cases n <;> decide

theorem rustCharToLower_ascii (c : Char) (h : utf8Size c = 1) :
    rustCharToLower c = [asciiLower c] ∧ utf8Size (asciiLower c) = 1 := by
  have hc : c.toNat ≤ 127 := ascii_toNat c h
  by_cases hu : 65 ≤ c.toNat ∧ c.toNat ≤ 90
  · refine ⟨by rw [rustCharToLower, if_pos hu, asciiLower, if_pos hu], ?_⟩
    rw [asciiLower, if_pos hu, utf8Size, ofNat_lower_toNat c.toNat hu.1 hu.2,
      if_pos (by omega)]
  · have h1 : ¬(c = 'İ') := by
      intro he; rw [he] at hc; exact absurd hc (by decide)
    have h2 : ¬(c = 'ẞ') := by
      intro he; rw [he] at hc; exact absurd hc (by decide)
    have h3 : ¬(c = 'Ⱥ') := by
      intro he; rw [he] at hc; exact absurd hc (by decide)
    have h4 : ¬(c = 'Ⱦ') := by
      intro he; rw [he] at hc; exact absurd hc (by decide)
    have h5 : ¬(0xC0 ≤ c.toNat ∧ c.toNat ≤ 0xDE ∧ c.toNat ≠ 0xD7) := by omega
    refine ⟨?_, by rw [asciiLower, if_neg hu]; exact h⟩
    rw [rustCharToLower, if_neg hu, if_neg h1, if_neg h2, if_neg h3, if_neg h4,
      if_neg h5, asciiLower, if_neg hu]

theorem toLowerRust_ascii (l : List Char) (h : asciiStr l) :
    toLowerRust l = l.map asciiLower := by
  induction l with
  | nil => rfl
  | cons c cs ih =>
    have hc := h c (List.mem_cons_self c cs)
    have hcs : asciiStr cs := fun d hd => h d (List.mem_cons_of_mem c hd)
    simp only [toLowerRust, List.flatMap_cons, List.map_cons] at *
    rw [(rustCharToLower_ascii c hc).1, ih hcs]
    rfl

theorem asciiStr_map_lower (l : List Char) (h : asciiStr l) :
    asciiStr (l.map asciiLower) := by
  intro c hc
  obtain ⟨a, ha, rfl⟩ := List.mem_map.mp hc
  exact (rustCharToLower_ascii a (h a ha)).2

theorem utf8Len_ascii (l : List Char) (h : asciiStr l) : utf8Len l = l.length := by
  induction l with
  | nil => rfl
  | cons c cs ih =>
    have hc := h c (List.mem_cons_self c cs)
    have hcs : asciiStr cs := fun d hd => h d (List.mem_cons_of_mem c hd)
    have htail := ih hcs
    simp only [utf8Len, List.map_cons, List.sum_cons, List.length_cons] at htail ⊢
    rw [hc, htail]
    omega

theorem takeBytes_ascii (l : List Char) (h : asciiStr l) :
    ∀ n, takeBytes l n = if n ≤ l.length then some (l.take n) else none := by
  induction l with
  | nil =>
    intro n
    cases n with
    | zero => rfl
    | succ m => rfl
  | cons c cs ih =>
    intro n
    have hc := h c (List.mem_cons_self c cs)
    have hcs : asciiStr cs := fun d hd => h d (List.mem_cons_of_mem c hd)
    cases n with
    | zero => rfl
    | succ m =>
      show (if utf8Size c ≤ m + 1 then (takeBytes cs (m + 1 - utf8Size c)).map _ else none) = _
      rw [hc, if_pos (by omega)]
      have : m + 1 - 1 = m := by omega
      rw [this, ih hcs m]
      by_cases hm : m ≤ cs.length
      · rw [if_pos hm, if_pos (by simpa using hm)]
        rfl
      · rw [if_neg hm, if_neg (by simp; omega)]
        rfl

theorem dropBytes_ascii (l : List Char) (h : asciiStr l) :
    ∀ n, dropBytes l n = if n ≤ l.length then some (l.drop n) else none := by
  induction l with
  | nil =>
    intro n
    cases n with
    | zero => rfl
    | succ m => rfl
  | cons c cs ih =>
    intro n
    have hc := h c (List.mem_cons_self c cs)
    have hcs : asciiStr cs := fun d hd => h d (List.mem_cons_of_mem c hd)
    cases n with
    | zero => rfl
    | succ m =>
      show (if utf8Size c ≤ m + 1 then dropBytes cs (m + 1 - utf8Size c) else none) = _
      rw [hc, if_pos (by omega)]
      have : m + 1 - 1 = m := by omega
      rw [this, ih hcs m]
      by_cases hm : m ≤ cs.length
      · rw [if_pos hm, if_pos (by simpa using hm)]
        rfl
      · rw [if_neg hm, if_neg (by simp; omega)]

theorem byteSlice_ascii (l : List Char) (h : asciiStr l) (s e : Nat)
    (hse : s ≤ e) (he : e ≤ l.length) :
    byteSlice l s e = some ((l.drop s).take (e - s)) := by
  have hs : s ≤ l.length := le_trans hse he
  have hdropascii : asciiStr (l.drop s) := fun c hc => h c (List.drop_subset s l hc)
  rw [byteSlice, if_pos hse, dropBytes_ascii l h s, if_pos hs]
  show takeBytes (l.drop s) (e - s) = _
  rw [takeBytes_ascii (l.drop s) hdropascii (e - s),
    if_pos (by rw [List.length_drop]; omega)]

theorem findB_some (p : List Char) :
    ∀ (l : List Char) (k : Nat), findB l p = some k →
      ∃ i, i ≤ l.length ∧ k = utf8Len (l.take i) ∧ p.isPrefixOf (l.drop i) = true := by
  intro l
  induction l with
  | nil =>
    intro k hk
    rw [findB] at hk
    by_cases hp : p.isPrefixOf [] = true
    · rw [if_pos hp] at hk
      injection hk with hk
      exact ⟨0, by omega, by simpa [utf8Len] using hk.symm, hp⟩
    · rw [if_neg hp] at hk
      cases hk
  | cons c cs ih =>
    intro k hk
    rw [findB] at hk
    by_cases hp : p.isPrefixOf (c :: cs) = true
    · rw [if_pos hp] at hk
      injection hk with hk
      exact ⟨0, by omega, by simpa [utf8Len] using hk.symm, hp⟩
    · rw [if_neg hp] at hk
      show ∃ i, _
      cases hfind : findB cs p with
      | none => rw [hfind] at hk; cases hk
      | some k2 =>
        rw [hfind] at hk
        injection hk with hk
        obtain ⟨i, hi, hk2, hpre⟩ := ih k2 hfind
        refine ⟨i + 1, by simpa using Nat.succ_le_succ hi, ?_, hpre⟩
        rw [← hk, hk2]
        simp [utf8Len]

theorem findB_isSome_of_prefix (p : List Char) :
    ∀ (l : List Char) (i : Nat), p.isPrefixOf (l.drop i) = true →
      (findB l p).isSome = true := by
  intro l
  induction l with
  | nil =>
    intro i h
    have : p.isPrefixOf ([] : List Char) = true := by
      cases i <;> simpa using h
    rw [findB, if_pos this]
    rfl
  | cons c cs ih =>
    intro i h
    rw [findB]
    by_cases hp : p.isPrefixOf (c :: cs) = true
    · rw [if_pos hp]; rfl
    · rw [if_neg hp]
      cases i with
      | zero => exact absurd h hp
      | succ j =>
        have := ih j (by simpa using h)
        cases hfind : findB cs p with
        | none => rw [hfind] at this; cases this
        | some k => rfl

theorem containsB_of_infix (l p : List Char) (h : p <:+: l) : containsB l p = true := by
  obtain ⟨s, t, hst⟩ := h
  have hpre : p.isPrefixOf (l.drop s.length) = true := by
    rw [← hst, List.append_assoc, List.drop_left]
    exact List.isPrefixOf_iff_prefix.mpr ⟨t, rfl⟩
  rw [containsB]
  exact findB_isSome_of_prefix p l s.length hpre

theorem toLowerRust_append (a b : List Char) :
    toLowerRust (a ++ b) = toLowerRust a ++ toLowerRust b := by
  simp [toLowerRust]

/-- C5 counterexample: in `text = "Ⱥba"`, the query `"a"` occurs
case-insensitively (lowercasing `Ⱥ` grows it from 2 to 3 bytes), but the
byte offsets computed on the lowercased text make the returned snippet the
bare ellipsis `"..."`, which does not contain the query. -/
theorem C5_counterexample :
    containsB (toLowerRust "Ⱥba".toList) (toLowerRust "a".toList) = true ∧
    extract_snippet "Ⱥba".toList "a".toList 0 = some "...".toList ∧
    containsB (toLowerRust "...".toList) (toLowerRust "a".toList) = false := by
  refine ⟨by decide, by decide, by decide⟩

/-- C5, amended to ASCII inputs (the counterexample shows the laws fail
once lowercasing changes byte lengths): for ASCII `text` and `query`,
`extract_snippet` returns a snippet; it contains the query
case-insensitively when the query occurs case-insensitively in the text;
otherwise it is the first `2r` bytes of the text followed by `"..."` when
`|text| > 2r`, and the unchanged text when `|text| ≤ 2r`. -/
theorem C5_snippet_amended (text query : List Char) (r : Nat)
    (ht : asciiStr text) (hq : asciiStr query) :
    ∃ s, extract_snippet text query r = some s ∧
      (containsB (toLowerRust text) (toLowerRust query) = true →
        containsB (toLowerRust s) (toLowerRust query) = true) ∧
      (containsB (toLowerRust text) (toLowerRust query) = false →
        (2 * r < text.length → s = text.take (2 * r) ++ "...".toList) ∧
        (text.length ≤ 2 * r → s = text)) := by
  have htl : toLowerRust text = text.map asciiLower := toLowerRust_ascii text ht
  have hql : toLowerRust query = query.map asciiLower := toLowerRust_ascii query hq
  have hlen_t : utf8Len text = text.length := utf8Len_ascii text ht
  have hlen_q : utf8Len query = query.length := utf8Len_ascii query hq
  have hitl : (toLowerRust text).length = text.length := by
    rw [htl]; exact List.length_map _ _
  have hiql : (toLowerRust query).length = query.length := by
    rw [hql]; exact List.length_map _ _
  cases hfind : findB (toLowerRust text) (toLowerRust query) with
  | none =>
    have hcont : containsB (toLowerRust text) (toLowerRust query) = false := by
      rw [containsB, hfind]; rfl
    by_cases hgt : 2 * r < text.length
    · have hslice := byteSlice_ascii text ht 0 (r * 2) (Nat.zero_le _) (by omega)
      refine ⟨text.take (2 * r) ++ "...".toList, ?_, ?_, ?_⟩
      · simp only [extract_snippet]
        rw [hfind, if_pos (by rw [hlen_t]; omega), hslice]
        simp [Nat.mul_comm]
      · intro hcontr
        rw [hcontr] at hcont
        cases hcont
      · intro _
        exact ⟨fun _ => rfl, fun hle => absurd hgt (by omega)⟩
    · refine ⟨text, ?_, ?_, ?_⟩
      · simp only [extract_snippet]
        rw [hfind, if_neg (by rw [hlen_t]; omega)]
      · intro hcontr
        rw [hcontr] at hcont
        cases hcont
      · intro _
        exact ⟨fun hlt => absurd hlt (by omega), fun _ => rfl⟩
  | some pos =>
    obtain ⟨i, hi, hpos, hpre⟩ :=
      findB_some (toLowerRust query) (toLowerRust text) pos hfind
    have hpos_eq : pos = i := by
      rw [hpos]
      have hsub : asciiStr ((toLowerRust text).take i) := by
        intro c hc
        rw [htl] at hc
        exact asciiStr_map_lower text ht c (List.take_subset i _ hc)
      rw [utf8Len_ascii _ hsub, List.length_take]
      exact min_eq_left hi
    rw [hpos_eq] at hfind
    rw [hitl] at hi
    have hqpre : (toLowerRust query) <+: ((toLowerRust text).drop i) :=
      List.isPrefixOf_iff_prefix.mp hpre
    have hqlen_le : i + query.length ≤ text.length := by
      have hle := hqpre.length_le
      rw [List.length_drop, hiql, hitl] at hle
      omega
    have hstart_le : i - r ≤ min (i + utf8Len query + r) (utf8Len text) := by
      rw [hlen_q, hlen_t]
      omega
    have hstop_le : min (i + utf8Len query + r) (utf8Len text) ≤ text.length := by
      rw [hlen_t]
      omega
    have hslice := byteSlice_ascii text ht (i - r)
      (min (i + utf8Len query + r) (utf8Len text)) hstart_le hstop_le
    refine ⟨(if i - r > 0 then "...".toList else []) ++
      ((text.drop (i - r)).take (min (i + utf8Len query + r) (utf8Len text) - (i - r))) ++
      (if min (i + utf8Len query + r) (utf8Len text) < utf8Len text
        then "...".toList else []), ?_, ?_, ?_⟩
    · simp only [extract_snippet]
      rw [hfind]
      dsimp only
      rw [hslice]
      rfl
    · intro _
      have hcore_ascii : asciiStr ((text.drop (i - r)).take
          (min (i + utf8Len query + r) (utf8Len text) - (i - r))) := by
        intro c hc
        exact ht c (List.drop_subset (i - r) text (List.take_subset _ _ hc))
      have hcore_lower : toLowerRust ((text.drop (i - r)).take
            (min (i + utf8Len query + r) (utf8Len text) - (i - r)))
          = ((toLowerRust text).drop (i - r)).take
              (min (i + utf8Len query + r) (utf8Len text) - (i - r)) := by
        rw [toLowerRust_ascii _ hcore_ascii, htl, List.map_take, List.map_drop]
      have hql_take : ((toLowerRust text).drop i).take (toLowerRust query).length
          = toLowerRust query := (List.prefix_iff_eq_take.mp hqpre).symm
      have hqlen_stop : i + (toLowerRust query).length
          ≤ min (i + utf8Len query + r) (utf8Len text) := by
        rw [hiql, hlen_q, hlen_t]
        omega
      have hkey : (toLowerRust query) <+:
          (((toLowerRust text).drop (i - r)).take
            (min (i + utf8Len query + r) (utf8Len text) - (i - r))).drop (i - (i - r)) := by
        rw [List.drop_take, List.drop_drop]
        have h1 : (i - r) + (i - (i - r)) = i := by omega
        rw [h1]
        have h3 : (((toLowerRust text).drop i).take
              (min (i + utf8Len query + r) (utf8Len text) - (i - r) - (i - (i - r)))).take
                (toLowerRust query).length = toLowerRust query := by
          rw [List.take_take, min_eq_left (by omega), hql_take]
        exact ⟨_, by rw [← h3]; exact List.take_append_drop _ _⟩
      have hinfix : (toLowerRust query) <:+:
          toLowerRust ((text.drop (i - r)).take
            (min (i + utf8Len query + r) (utf8Len text) - (i - r))) := by
        rw [hcore_lower]
        exact hkey.isInfix.trans (List.drop_suffix _ _).isInfix
      obtain ⟨u, v, huv⟩ := hinfix
      refine containsB_of_infix _ _ ?_
      rw [toLowerRust_append, toLowerRust_append]
      exact ⟨toLowerRust (if i - r > 0 then "...".toList else []) ++ u,
        v ++ toLowerRust (if min (i + utf8Len query + r) (utf8Len text) < utf8Len text
          then "...".toList else []), by rw [← huv]; simp⟩
    · intro hcontr
      rw [containsB, hfind] at hcontr
      cases hcontr

/-- Witness for C5 on concrete ASCII inputs. -/
theorem C5_snippet_amended_witness :
    ∃ s, extract_snippet "The Quick Fox".toList "quick".toList 2 = some s ∧
      (containsB (toLowerRust "The Quick Fox".toList) (toLowerRust "quick".toList) = true →
        containsB (toLowerRust s) (toLowerRust "quick".toList) = true) ∧
      (containsB (toLowerRust "The Quick Fox".toList) (toLowerRust "quick".toList) = false →
        (2 * 2 < "The Quick Fox".toList.length →
          s = "The Quick Fox".toList.take (2 * 2) ++ "...".toList) ∧
        ("The Quick Fox".toList.length ≤ 2 * 2 → s = "The Quick Fox".toList)) :=
  C5_snippet_amended "The Quick Fox".toList "quick".toList 2
    (by unfold asciiStr; decide) (by unfold asciiStr; decide)

/-! ## C7: save/load round trip -/

/-! ## C7: save/load round trip -/

theorem parse_digits (es : List Nat) :
    (∀ d ∈ es, d < 10) → ∀ acc : Nat,
    List.foldlM (fun acc c => (digitVal? c).map (fun d => 10 * acc + d)) acc
      (es.map (fun d => Char.ofNat (48 + d)))
      = some (acc * 10 ^ es.length + Nat.ofDigits 10 es.reverse) := by
  induction es with
  | nil =>
    intro _ acc
    simp [Nat.ofDigits]
  | cons e tl ih =>
    intro h acc
    have he : e < 10 := h e (List.mem_cons_self e tl)
    have htl : ∀ d ∈ tl, d < 10 := fun d hd => h d (List.mem_cons_of_mem e hd)
    have hval : digitVal? (Char.ofNat (48 + e)) = some e := by
      interval_cases e <;> decide
    rw [List.map_cons, List.foldlM_cons]
    rw [show ((digitVal? (Char.ofNat (48 + e))).map (fun d => 10 * acc + d))
        = some (10 * acc + e) from by rw [hval]; rfl]
    show List.foldlM _ (10 * acc + e) _ = _
    rw [ih htl (10 * acc + e)]
    congr 1
    rw [List.reverse_cons, Nat.ofDigits_append, Nat.ofDigits_singleton,
      List.length_cons, pow_succ, List.length_reverse]
    ring

theorem natKey?_ne_nil (l : List Char) (h : l ≠ []) :
    natKey? l = l.foldlM (fun acc c => (digitVal? c).map (fun d => 10 * acc + d)) 0 := by
  cases l with
  | nil => exact absurd rfl h
  | cons c cs => rfl

theorem natKey_round (n : Nat) : natKey? (natKey n) = some n := by
  by_cases h0 : n = 0
  · subst h0; decide
  · rw [natKey, if_neg h0]
    have hne : Nat.digits 10 n ≠ [] := Nat.digits_ne_nil_iff_ne_zero.mpr h0
    have hmapne : ((Nat.digits 10 n).reverse).map (fun d => Char.ofNat (48 + d)) ≠ [] := by
      simp [hne]
    rw [natKey?_ne_nil _ hmapne]
    rw [parse_digits ((Nat.digits 10 n).reverse)
      (fun d hd => Nat.digits_lt_base (by norm_num) (List.mem_reverse.mp hd)) 0]
    simp [Nat.ofDigits_digits]

theorem natKey_head_ne_dash (n : Nat) :
    ∃ c cs, natKey n = c :: cs ∧ ¬(c = '-') := by
  by_cases h0 : n = 0
  · exact ⟨'0', [], by rw [h0]; rfl, by decide⟩
  · have hne : Nat.digits 10 n ≠ [] := Nat.digits_ne_nil_iff_ne_zero.mpr h0
    cases hd : (Nat.digits 10 n).reverse with
    | nil => exact absurd (List.reverse_eq_nil_iff.mp hd) hne
    | cons d ds =>
      have hmem : d ∈ Nat.digits 10 n := by
        refine List.mem_reverse.mp ?_
        rw [hd]
        exact List.mem_cons_self d ds
      have hdlt : d < 10 := Nat.digits_lt_base (by norm_num) hmem
      refine ⟨Char.ofNat (48 + d), ds.map (fun d => Char.ofNat (48 + d)), ?_, ?_⟩
      · rw [natKey, if_neg h0, hd, List.map_cons]
      · interval_cases d <;> decide

theorem intKey_round (i : Int) : intKey? (intKey i) = some i := by
  by_cases hneg : i < 0
  · rw [intKey, if_pos hneg]
    have hstep : intKey? ('-' :: natKey i.natAbs)
        = (natKey? (natKey i.natAbs)).map (fun n => -(n : Int)) := by
      simp [intKey?]
    rw [hstep, natKey_round]
    show some (-(i.natAbs : Int)) = some i
    congr 1
    omega
  · rw [intKey, if_neg hneg]
    obtain ⟨c, cs, hcons, hcd⟩ := natKey_head_ne_dash i.toNat
    rw [hcons]
    have hstep : intKey? (c :: cs)
        = if c = '-' then (natKey? cs).map (fun n => -(n : Int))
          else (natKey? (c :: cs)).map (fun n => (n : Int)) := by
      simp [intKey?]
    rw [hstep, if_neg hcd, ← hcons, natKey_round]
    show some ((i.toNat : Int)) = some i
    congr 1
    omega

theorem mapM_jsonRat (vec : List ℚ) : (vec.map Json.num).mapM jsonRat? = some vec := by
  induction vec with
  | nil => rfl
  | cons q qs ih =>
    rw [List.map_cons, List.mapM_cons]
    rw [show jsonRat? (Json.num q) = some q from rfl, ih]
    rfl

theorem mapM_entries (vs : List (Int × List ℚ)) :
    (vs.map (fun p => (intKey p.1, Json.arr (p.2.map Json.num)))).mapM jsonEntry?
      = some vs := by
  induction vs with
  | nil => rfl
  | cons p ps ih =>
    rw [List.map_cons, List.mapM_cons]
    have hentry : jsonEntry? (intKey p.1, Json.arr (p.2.map Json.num)) = some p := by
      show (intKey? (intKey p.1)).bind
        (fun i => (jsonVec? (Json.arr (p.2.map Json.num))).map (fun vec => (i, vec))) = some p
      rw [intKey_round]
      show (jsonVec? (Json.arr (p.2.map Json.num))).map (fun vec => (p.1, vec)) = some p
      rw [show jsonVec? (Json.arr (p.2.map Json.num))
          = (p.2.map Json.num).mapM jsonRat? from rfl, mapM_jsonRat]
      rfl
    rw [hentry, ih]
    rfl

/-- C7. Saving a vector store and loading the result restores the same
dimension and the same id-to-vector map, so any subsequent search on the
loaded store returns exactly what the original store returned. -/
theorem C7_save_load_roundtrip (s : VectorStore) :
    VectorStore.load (VectorStore.save s) = Except.ok s ∧
    ∀ q limit, (VectorStore.load (VectorStore.save s)).map (fun s2 => s2.search q limit)
      = Except.ok (s.search q limit) := by
  obtain ⟨d, vs⟩ := s
  have h1 : VectorStore.load (VectorStore.save ⟨d, vs⟩) = Except.ok ⟨d, vs⟩ := by
    rw [VectorStore.save]
    simp only [VectorStore.load]
    have hf1 : lookupField
        [("dimension".toList, Json.num (d : ℚ)),
         ("vectors".toList,
          Json.obj (vs.map (fun p => (intKey p.1, Json.arr (p.2.map Json.num)))))]
        "dimension".toList = some (Json.num (d : ℚ)) := by
      simp [lookupField, List.find?]
    have hf2 : lookupField
        [("dimension".toList, Json.num (d : ℚ)),
         ("vectors".toList,
          Json.obj (vs.map (fun p => (intKey p.1, Json.arr (p.2.map Json.num)))))]
        "vectors".toList
        = some (Json.obj (vs.map (fun p => (intKey p.1, Json.arr (p.2.map Json.num))))) := by
      simp [lookupField, List.find?]
    rw [hf1, hf2]
    dsimp only
    have hnat : jsonNat? (Json.num (d : ℚ)) = some d := by
      show (if ((d : ℚ)).den = 1 ∧ 0 ≤ ((d : ℚ)).num then some ((d : ℚ)).num.toNat else none)
        = some d
      rw [if_pos ⟨by simp, by simp⟩]
      simp
    rw [hnat, mapM_entries]
  refine ⟨h1, ?_⟩
  intro q limit
  rw [h1]
  rfl

/-! ## C8: unit norm after normalization -/

/-! ## C8: unit norm after normalization -/

theorem normSq_nonneg (v : List ℝ) : 0 ≤ normSq v := by
  induction v with
  | nil => simp [normSq]
  | cons x xs ih =>
    simp only [normSq, List.map_cons, List.sum_cons] at *
    have := mul_self_nonneg x
    linarith

theorem normSq_map_div (v : List ℝ) (n : ℝ) :
    normSq (v.map (fun x => x / n)) = normSq v / (n * n) := by
  induction v with
  | nil => simp [normSq]
  | cons x xs ih =>
    simp only [normSq, List.map_cons, List.sum_cons] at *
    rw [ih, div_mul_div_comm, div_add_div_same]

/-- C8. `normalize` returns the input scaled to unit norm when the norm is
positive (so the result's L2 norm is exactly 1 in the exact-arithmetic
model, well within the claimed `1e-3`), and returns the input unchanged
when the norm is 0. -/
theorem C8_normalize_unit_norm (v : List ℝ) :
    (0 < rnorm v →
      normalize v = v.map (fun x => x / rnorm v) ∧
      normSq (normalize v) = 1 ∧
      |Real.sqrt (normSq (normalize v)) - 1| ≤ 1 / 1000) ∧
    (rnorm v = 0 → normalize v = v) := by
  constructor
  · intro hpos
    have heq : normalize v = v.map (fun x => x / rnorm v) := by
      rw [normalize, if_pos hpos]
    have hnormSq_pos : 0 < normSq v := Real.sqrt_pos.mp (by rwa [rnorm] at hpos)
    have hsq : rnorm v * rnorm v = normSq v := by
      rw [rnorm]
      exact Real.mul_self_sqrt (normSq_nonneg v)
    have h1 : normSq (normalize v) = 1 := by
      rw [heq, normSq_map_div, hsq, div_self (ne_of_gt hnormSq_pos)]
    refine ⟨heq, h1, ?_⟩
    rw [h1, Real.sqrt_one]
    norm_num
  · intro hz
    rw [normalize, if_neg (by rw [hz]; exact lt_irrefl 0)]

/-- Witness for C8 at the 3-4-5 vector. -/
theorem C8_normalize_unit_norm_witness :
    0 < rnorm [(3 : ℝ), 4] ∧ normalize [(3 : ℝ), 4] = [3/5, 4/5] := by
  have h25 : normSq [(3 : ℝ), 4] = 25 := by
    simp [normSq]
    norm_num
  have h5 : rnorm [(3 : ℝ), 4] = 5 := by
    rw [rnorm, h25, show (25 : ℝ) = 5 ^ 2 by norm_num,
      Real.sqrt_sq (by norm_num : (0 : ℝ) ≤ 5)]
  have hpos : 0 < rnorm [(3 : ℝ), 4] := by
    rw [h5]
    norm_num
  refine ⟨hpos, ?_⟩
  have hmain := (C8_normalize_unit_norm [(3 : ℝ), 4]).1 hpos
  rw [hmain.1, h5]
  norm_num

end Khoj
